import Mathlib

/-!
Verification of the core extraction pipeline of the stoneage-be repository.

The Python sources are shallowly embedded: JSON values become an inductive
type, layout/OCR "blocks" (Python dicts with optional keys) become a
structure of `Option` fields, and each function of the pipeline becomes a
Lean function translated directly from the corresponding Python definition.
External libraries (pypdf, pdfplumber, pytesseract, json) are modelled by
their outputs, which are taken as parameters.
-/

/-- JSON values as produced by `json.loads`; an object is the ordered list of
its key/value pairs (Python dicts preserve insertion order). -/
inductive Json where
  | null
  | bool (b : Bool)
  | num (n : Int)
  | str (s : String)
  | arr (xs : List Json)
  | obj (kvs : List (String × Json))
deriving Repr

/-- A layout/OCR block, in Python a dict that may be missing any key.
`page` is a zero-based page index; the geometry fields are page-local
coordinates. A missing key is `none`. -/
structure Block where
  text : Option String := none
  x0 : Option Int := none
  top : Option Int := none
  x1 : Option Int := none
  bottom : Option Int := none
  page : Option Nat := none
deriving Repr, DecidableEq

/-- The composite sort key used by `DocumentFormatter.blocks_to_text`:
`(b.get("page", 0), b.get("top", 0), b.get("x0", 0))`. -/
def sortKey (b : Block) : Nat × Int × Int :=
  (b.page.getD 0, b.top.getD 0, b.x0.getD 0)

/-- Python's lexicographic tuple comparison on the composite sort key,
as used by `sorted(blocks, key=...)`. -/
def keyLe (b b' : Block) : Bool :=
  decide (b.page.getD 0 < b'.page.getD 0) ||
    (decide (b.page.getD 0 = b'.page.getD 0) &&
      (decide (b.top.getD 0 < b'.top.getD 0) ||
        (decide (b.top.getD 0 = b'.top.getD 0) &&
          decide (b.x0.getD 0 ≤ b'.x0.getD 0))))

/-- The text a block contributes to the join in `blocks_to_text`:
`b["text"]` is emitted exactly when `b.get("text")` is truthy, i.e. when the
key is present and the string non-empty (the guarded access cannot raise). -/
def textOf (b : Block) : Option String :=
  match b.text with
  | some t => if t = "" then none else some t
  | none => none

/-- Embeds `DocumentFormatter.blocks_to_text`: sort blocks by `(page, top, x0)`
(with 0 defaults for missing keys; Python's `sorted` is a stable merge
sort), then join the truthy texts with single spaces. -/
def blocks_to_text (blocks : List Block) : String :=
  String.intercalate " " ((blocks.mergeSort keyLe).filterMap textOf)

lemma keyLe_trans (a b c : Block) (h1 : keyLe a b = true) (h2 : keyLe b c = true) :
    keyLe a c = true := by
  simp only [keyLe, Bool.or_eq_true, Bool.and_eq_true, decide_eq_true_eq] at *
  omega

lemma keyLe_total (a b : Block) : (keyLe a b || keyLe b a) = true := by
  simp only [keyLe, Bool.or_eq_true, Bool.and_eq_true, decide_eq_true_eq]
  omega

/-- C3: for every list of blocks, `blocks_to_text` equals the texts of the
blocks sorted by the composite key (page asc, top asc, x0 asc) joined with a
single space, with blocks whose text is empty or missing excluded from the
join. -/
theorem blocks_to_text_is_sorted_join (blocks : List Block) :
    ∃ bs : List Block, List.Perm bs blocks ∧
      List.Pairwise (fun a b => keyLe a b = true) bs ∧
      blocks_to_text blocks = String.intercalate " " (bs.filterMap textOf) :=
  ⟨blocks.mergeSort keyLe, List.mergeSort_perm blocks keyLe,
    List.sorted_mergeSort keyLe_trans keyLe_total blocks, rfl⟩

/-- Replace a missing `page`, `top` or `x0` key by an explicit 0, leaving all
other fields unchanged (the defaults `b.get(..., 0)` supplies while sorting). -/
def fillZeros (b : Block) : Block :=
  { b with page := some (b.page.getD 0), top := some (b.top.getD 0),
           x0 := some (b.x0.getD 0) }

lemma keyLe_fillZeros (a b : Block) : keyLe a b = keyLe (fillZeros a) (fillZeros b) := by
  simp [keyLe, fillZeros]

lemma textOf_fillZeros (b : Block) : textOf (fillZeros b) = textOf b := by
  simp [textOf, fillZeros]

/-- C10: `blocks_to_text` is total over arbitrary block dicts: a block
missing any of `page`, `top`, `x0` is sorted exactly as if the missing value
were 0 (replacing the missing keys by 0 leaves the output unchanged), and
the emitted tokens are precisely the texts of the blocks whose `text` key is
present and non-empty — blocks with absent/empty text are excluded rather
than raising an error. -/
theorem blocks_to_text_total_defaults (blocks : List Block) :
    blocks_to_text (blocks.map fillZeros) = blocks_to_text blocks ∧
    List.Perm ((blocks.mergeSort keyLe).filterMap textOf) (blocks.filterMap textOf) := by
  constructor
  · have hmap : List.map fillZeros (blocks.mergeSort keyLe) =
        (List.map fillZeros blocks).mergeSort keyLe :=
      List.map_mergeSort (fun a _ b _ => keyLe_fillZeros a b)
    unfold blocks_to_text
    rw [← hmap, List.filterMap_map]
    have hfun : (textOf ∘ fillZeros) = textOf := funext textOf_fillZeros
    rw [hfun]
  · exact (List.mergeSort_perm blocks keyLe).filterMap textOf

/-- Output of `DocumentFormatter.regex_extract`: the four deterministic
match lists, in first-occurrence order, unlimited at this stage. -/
structure RegexData where
  emails : List String
  phones : List String
  amounts : List String
  dates_numeric : List String
deriving Repr

/-- Output of `DocumentFormatter.extract_entities`: the five NER buckets,
in detection order, unlimited at this stage. -/
structure Entities where
  organizations : List String
  dates : List String
  money : List String
  persons : List String
  locations : List String
deriving Repr

/-- The bounded-length hint structure handed to the LLM prompt. -/
structure Hints where
  emails : List String
  phones : List String
  amount_candidates : List String
  numeric_dates : List String
  organizations : List String
  dates : List String
  money_entities : List String
  persons : List String
  locations : List String
deriving Repr

/-- Embeds `DocumentFormatter.build_llm_hints`: each category is the input list
sliced to its cap (`[:5]` for emails/phones, `[:10]` for the rest). -/
def build_llm_hints (regex_data : RegexData) (entities : Entities) : Hints where
  emails := regex_data.emails.take 5
  phones := regex_data.phones.take 5
  amount_candidates := regex_data.amounts.take 10
  numeric_dates := regex_data.dates_numeric.take 10
  organizations := entities.organizations.take 10
  dates := entities.dates.take 10
  money_entities := entities.money.take 10
  persons := entities.persons.take 10
  locations := entities.locations.take 10

/-- C4: for every regex output and entity output, `build_llm_hints` maps
each of the nine hint categories to the corresponding input list truncated
to its fixed cap (emails/phones at most 5, all others at most 10),
preserving input order (each output is the prefix `take cap` of its input),
regardless of how many matches exist. -/
theorem build_llm_hints_caps (regex_data : RegexData) (entities : Entities) :
    (build_llm_hints regex_data entities).emails = regex_data.emails.take 5 ∧
    (build_llm_hints regex_data entities).emails.length ≤ 5 ∧
    (build_llm_hints regex_data entities).phones = regex_data.phones.take 5 ∧
    (build_llm_hints regex_data entities).phones.length ≤ 5 ∧
    (build_llm_hints regex_data entities).amount_candidates = regex_data.amounts.take 10 ∧
    (build_llm_hints regex_data entities).amount_candidates.length ≤ 10 ∧
    (build_llm_hints regex_data entities).numeric_dates = regex_data.dates_numeric.take 10 ∧
    (build_llm_hints regex_data entities).numeric_dates.length ≤ 10 ∧
    (build_llm_hints regex_data entities).organizations = entities.organizations.take 10 ∧
    (build_llm_hints regex_data entities).organizations.length ≤ 10 ∧
    (build_llm_hints regex_data entities).dates = entities.dates.take 10 ∧
    (build_llm_hints regex_data entities).dates.length ≤ 10 ∧
    (build_llm_hints regex_data entities).money_entities = entities.money.take 10 ∧
    (build_llm_hints regex_data entities).money_entities.length ≤ 10 ∧
    (build_llm_hints regex_data entities).persons = entities.persons.take 10 ∧
    (build_llm_hints regex_data entities).persons.length ≤ 10 ∧
    (build_llm_hints regex_data entities).locations = entities.locations.take 10 ∧
    (build_llm_hints regex_data entities).locations.length ≤ 10 := by
  refine ⟨rfl, ?_, rfl, ?_, rfl, ?_, rfl, ?_, rfl, ?_, rfl, ?_, rfl, ?_, rfl, ?_, rfl, ?_⟩
  all_goals simp [build_llm_hints, List.length_take]

/-- Embeds `PDFProcessor.is_scanned`, abstracting pypdf: `pageTexts` is the list of
per-page results of `page.extract_text()`; the code returns
`not any(page.extract_text() for page in reader.pages)`, where a string is
truthy iff non-empty. -/
def is_scanned (pageTexts : List String) : Bool :=
  !(pageTexts.any (fun t => !(t == "")))

/-- C2: `is_scanned` returns true iff no page yields any extractable text
(every page's extracted text has zero characters), and returns false iff at
least one page yields any text. -/
lemma string_length_zero (s : String) : s.length = 0 ↔ s = "" := by
  constructor
  · intro h
    cases s with
    | mk data =>
      cases data with
      | nil => rfl
      | cons a t => simp [String.length] at h
  · intro h; subst h; rfl

theorem is_scanned_iff_no_text (pageTexts : List String) :
    (is_scanned pageTexts = true ↔ ∀ t ∈ pageTexts, t.length = 0) ∧
    (is_scanned pageTexts = false ↔ ∃ t ∈ pageTexts, t.length ≠ 0) := by
  constructor
  · simp [is_scanned, string_length_zero]
  · simp [is_scanned, string_length_zero]

/-- Models `d.get(k)` on a Python dict modelled as an ordered key/value list. -/
def dictGet? : List (String × Json) → String → Option Json
  | [], _ => none
  | p :: rest, k => if p.1 = k then some p.2 else dictGet? rest k

/-- Models `d[k] = v` on a Python dict: replace the value at the first occurrence
of `k`, else append the new key at the end (insertion order preserved). -/
def dictSet : List (String × Json) → String → Json → List (String × Json)
  | [], k, v => [(k, v)]
  | p :: rest, k, v =>
      if p.1 = k then (k, v) :: rest else p :: dictSet rest k v

/-- The keys of a dict, in order. -/
def dictKeys (d : List (String × Json)) : List String := d.map Prod.fst

/-- The dict comprehension closing `LLMProcessor.extract`:
`\x7bfield: parsed.get(field) for field in fields\x7d` over a parsed object. -/
def reduceFields (fields : List String) (kvs : List (String × Json)) :
    List (String × Json) :=
  fields.foldl (fun acc f => dictSet acc f ((dictGet? kvs f).getD Json.null)) []

/-- The tail of `LLMProcessor.extract` after `parse_json`: a parsed list is
returned unchanged; a parsed object is reduced to the requested fields; a
scalar has no `.get` attribute, which raises (modelled as `none`). -/
def extract_reduce (fields : List String) (parsed : Json) : Option Json :=
  match parsed with
  | .arr xs => some (.arr xs)
  | .obj kvs => some (.obj (reduceFields fields kvs))
  | _ => none

lemma dictGet_dictSet (d : List (String × Json)) (k k' : String) (v : Json) :
    dictGet? (dictSet d k v) k' = if k' = k then some v else dictGet? d k' := by
  induction d with
  | nil =>
    by_cases h : k' = k
    · simp [dictSet, dictGet?, h]
    · have hk : ¬ k = k' := fun hc => h hc.symm
      simp [dictSet, dictGet?, h, hk]
  | cons p rest ih =>
    by_cases hp : p.1 = k
    · by_cases h : k' = k
      · simp [dictSet, dictGet?, hp, h]
      · have hk : ¬ k = k' := fun hc => h hc.symm
        have hq : ¬ p.1 = k' := fun hc => hk (hp.symm.trans hc)
        simp [dictSet, dictGet?, hp, h, hk, hq]
    · by_cases hq : p.1 = k'
      · have h : ¬ k' = k := fun hc => hp (hq.trans hc)
        simp [dictSet, dictGet?, hp, hq, h]
      · simp [dictSet, dictGet?, hp, hq, ih]

lemma mem_dictKeys_dictSet (d : List (String × Json)) (k k' : String) (v : Json) :
    k' ∈ dictKeys (dictSet d k v) ↔ k' ∈ dictKeys d ∨ k' = k := by
  induction d with
  | nil => simp [dictSet, dictKeys]
  | cons p rest ih =>
    by_cases hp : p.1 = k
    · simp [dictSet, dictKeys, hp]
      tauto
    · simp [dictSet, dictKeys, hp] at ih ⊢
      tauto

lemma nodup_dictKeys_dictSet (d : List (String × Json)) (k : String) (v : Json)
    (h : (dictKeys d).Nodup) : (dictKeys (dictSet d k v)).Nodup := by
  induction d with
  | nil => simp [dictSet, dictKeys]
  | cons p rest ih =>
    simp only [dictKeys, List.map_cons, List.nodup_cons] at h
    by_cases hp : p.1 = k
    · simp only [dictSet, hp, if_true, dictKeys, List.map_cons, List.nodup_cons]
      exact ⟨hp ▸ h.1, h.2⟩
    · simp only [dictSet, hp, if_false, dictKeys, List.map_cons, List.nodup_cons]
      refine ⟨fun hc => ?_, ih h.2⟩
      rcases (mem_dictKeys_dictSet rest k p.1 v).mp hc with hc | hc
      · exact h.1 hc
      · exact hp hc

lemma dictGet_reduceFields_aux (kvs : List (String × Json)) (fields : List String)
    (acc : List (String × Json)) (k : String) :
    dictGet? (fields.foldl
        (fun acc f => dictSet acc f ((dictGet? kvs f).getD Json.null)) acc) k =
      if k ∈ fields then some ((dictGet? kvs k).getD Json.null)
      else dictGet? acc k := by
  induction fields generalizing acc with
  | nil => simp
  | cons f fs ih =>
    simp only [List.foldl_cons, ih, dictGet_dictSet, List.mem_cons]
    by_cases hfs : k ∈ fs
    · simp [hfs]
    · by_cases hf : k = f
      · simp [hf, hfs]
      · simp [hf, hfs]

lemma mem_dictKeys_reduceFields_aux (kvs : List (String × Json)) (fields : List String)
    (acc : List (String × Json)) (k : String) :
    k ∈ dictKeys (fields.foldl
        (fun acc f => dictSet acc f ((dictGet? kvs f).getD Json.null)) acc) ↔
      k ∈ fields ∨ k ∈ dictKeys acc := by
  induction fields generalizing acc with
  | nil => simp
  | cons f fs ih =>
    simp only [List.foldl_cons, ih, mem_dictKeys_dictSet, List.mem_cons]
    tauto

lemma nodup_dictKeys_reduceFields_aux (kvs : List (String × Json)) (fields : List String)
    (acc : List (String × Json)) (h : (dictKeys acc).Nodup) :
    (dictKeys (fields.foldl
        (fun acc f => dictSet acc f ((dictGet? kvs f).getD Json.null)) acc)).Nodup := by
  induction fields generalizing acc with
  | nil => simpa
  | cons f fs ih =>
    simp only [List.foldl_cons]
    exact ih _ (nodup_dictKeys_dictSet acc f _ h)

/-- C1: for every requested field list and parsed model response,
`LLMProcessor.extract` returns a parsed list unchanged; for a parsed object
it returns a mapping whose key set is exactly the requested field set
(without duplicate keys), where each requested field maps to the parsed
object's value when present and to null when absent, and every key of the
parsed object outside the requested fields is discarded. -/
theorem extract_reduce_spec :
    (∀ (fields : List String) (xs : List Json),
      extract_reduce fields (Json.arr xs) = some (Json.arr xs)) ∧
    (∀ (fields : List String) (kvs : List (String × Json)),
      ∃ m, extract_reduce fields (Json.obj kvs) = some (Json.obj m) ∧
        (dictKeys m).Nodup ∧
        (∀ k, k ∈ dictKeys m ↔ k ∈ fields) ∧
        (∀ f ∈ fields, dictGet? m f = some ((dictGet? kvs f).getD Json.null)) ∧
        (∀ k, k ∉ fields → dictGet? m k = none)) := by
  constructor
  · intro fields xs
    rfl
  · intro fields kvs
    refine ⟨reduceFields fields kvs, rfl, ?_, ?_, ?_, ?_⟩
    · exact nodup_dictKeys_reduceFields_aux kvs fields [] (by simp [dictKeys])
    · intro k
      rw [reduceFields, mem_dictKeys_reduceFields_aux]
      simp [dictKeys]
    · intro f hf
      rw [reduceFields, dictGet_reduceFields_aux]
      simp [hf]
    · intro k hk
      rw [reduceFields, dictGet_reduceFields_aux]
      simp [hk, dictGet?]

/-- Witness for C1 at a concrete input: requested fields `["a", "b"]` and a
parsed object holding `a` and an extraneous `c`: the result keeps `a`'s
value, defaults `b` to null and discards `c`. -/
theorem extract_reduce_spec_witness :
    ∃ m, extract_reduce ["a", "b"] (Json.obj [("a", Json.num 1), ("c", Json.num 2)]) =
        some (Json.obj m) ∧
      dictGet? m "a" = some (Json.num 1) ∧
      dictGet? m "b" = some Json.null ∧
      dictGet? m "c" = none := by
  obtain ⟨m, hm, _, _, hv, hout⟩ :=
    extract_reduce_spec.2 ["a", "b"] [("a", Json.num 1), ("c", Json.num 2)]
  refine ⟨m, hm, ?_, ?_, ?_⟩
  · have := hv "a" (by simp)
    simpa [dictGet?] using this
  · have := hv "b" (by simp)
    simpa [dictGet?] using this
  · exact hout "c" (by simp)

/-- Whether `pat` is an initial segment of the character list. -/
def startsWithPat : List Char → List Char → Bool
  | [], _ => true
  | _ :: _, [] => false
  | p :: ps, c :: cs => (p = c) && startsWithPat ps cs

/-- Fuelled worker for `replaceAll`; one unit of fuel per consumed input
character suffices because the patterns used are non-empty. -/
def replaceAllFuel (pat rep : List Char) : Nat → List Char → List Char
  | 0, s => s
  | _ + 1, [] => []
  | fuel + 1, c :: cs =>
      if startsWithPat pat (c :: cs) then
        rep ++ replaceAllFuel pat rep fuel ((c :: cs).drop pat.length)
      else c :: replaceAllFuel pat rep fuel cs

/-- Python's `str.replace(pat, rep)`: replace every non-overlapping,
leftmost-first occurrence of `pat`. -/
def replaceAll (s pat rep : List Char) : List Char :=
  replaceAllFuel pat rep s.length s

/-- Python's `str.strip()`: drop leading and trailing whitespace. -/
def trimChars (s : List Char) : List Char :=
  ((s.dropWhile Char.isWhitespace).reverse.dropWhile Char.isWhitespace).reverse

/-- The cleaning step of `LLMProcessor.parse_json`:
`text.strip().replace("```json", "").replace("```", "").strip()`. -/
def cleanFences (text : String) : String :=
  String.mk (trimChars (replaceAll (replaceAll (trimChars text.toList)
    "```json".toList "".toList) "```".toList "".toList))

/-- Embeds `LLMProcessor.parse_json`, abstracting the standard JSON parser as
`loads` (`none` models a raised `JSONDecodeError`): try a direct parse; on
failure retry exactly once on the fence-cleaned text; a second failure
propagates. -/
def parse_json (loads : String → Option Json) (text : String) : Option Json :=
  match loads text with
  | some v => some v
  | none => loads (cleanFences text)

/-- C5: for every JSON parser behaviour and input string, `parse_json`
returns the parsed value when the text parses directly; on a parse failure
it retries exactly once on the text with Markdown code-fence markers
(```json / ```) stripped and whitespace trimmed; and when that retry also
fails, the parse failure propagates with no further fallback. -/
theorem parse_json_retry_once (loads : String → Option Json) (text : String) :
    (∀ v, loads text = some v → parse_json loads text = some v) ∧
    (loads text = none → parse_json loads text = loads (cleanFences text)) ∧
    (loads text = none → loads (cleanFences text) = none →
      parse_json loads text = none) := by
  refine ⟨fun v hv => ?_, fun h => ?_, fun h h2 => ?_⟩
  · simp [parse_json, hv]
  · simp [parse_json, h]
  · simp [parse_json, h, h2]

/-- A minimal concrete stand-in for `json.loads` that recognises exactly the
text `null`. -/
def loadsNullOnly (s : String) : Option Json :=
  if s = "null" then some Json.null else none

/-- Witness for C5 at a concrete input: fenced text fails the direct parse,
and the single retry on the fence-stripped text succeeds. -/
theorem parse_json_retry_once_witness :
    loadsNullOnly " ```json\nnull\n``` " = none ∧
    parse_json loadsNullOnly " ```json\nnull\n``` " = some Json.null := by
  constructor
  · rfl
  · have h := (parse_json_retry_once loadsNullOnly " ```json\nnull\n``` ").2.1
      (by rfl)
    rw [h]
    rfl

/-- The default field list of `ExtractionOrchestrator.extract_data`. -/
def defaultFields : List String := ["invoice_number", "invoice_date", "total_amount"]

/-- Models `fields = fields or [...]`: Python replaces a `None` or empty caller
list by the default list. -/
def resolvedFields (fields : Option (List String)) : List String :=
  match fields with
  | none => defaultFields
  | some [] => defaultFields
  | some fs => fs

/-- The result construction of `ExtractionOrchestrator.extract_data` with
the LLM stage bypassed: `result = \x7bf: None for f in fields\x7d`, then the
artifact path produced by the Excel collaborator (taken as a parameter) is
attached: `\x7b**result, "excel_path": str(excel_path)\x7d`. -/
def extract_data_result (fields : Option (List String)) (excelPath : String) :
    List (String × Json) :=
  let fs := resolvedFields fields
  let result := fs.foldl (fun acc f => dictSet acc f Json.null) []
  dictSet result "excel_path" (Json.str excelPath)

/-- Counterexample to C8: with the LLM stage bypassed and requested fields
`["invoice_number", "total_amount"]`, the returned map does not contain the
keys `invoice_number` and `total_amount` only — it also carries
`excel_path`. -/
theorem extract_data_result_extra_key :
    ¬ (∀ k ∈ dictKeys
        (extract_data_result (some ["invoice_number", "total_amount"])
          "generated_excel/report.xlsx"),
        k = "invoice_number" ∨ k = "total_amount") := by
  intro h
  have hmem : "excel_path" ∈ dictKeys
      (extract_data_result (some ["invoice_number", "total_amount"])
        "generated_excel/report.xlsx") := by
    rw [show extract_data_result (some ["invoice_number", "total_amount"])
        "generated_excel/report.xlsx" =
        [("invoice_number", Json.null), ("total_amount", Json.null),
         ("excel_path", Json.str "generated_excel/report.xlsx")] from rfl]
    simp [dictKeys]
  rcases h "excel_path" hmem with hc | hc <;> simp at hc

/-- C8 as amended: when the LLM stage is bypassed and the requested fields
are `["invoice_number", "total_amount"]`, the map returned by
`extract_data` contains exactly the keys `invoice_number` and
`total_amount`, each defaulted to null, plus `excel_path` holding the
generated artifact's path. -/
theorem extract_data_result_amended (excelPath : String) :
    extract_data_result (some ["invoice_number", "total_amount"]) excelPath =
      [("invoice_number", Json.null), ("total_amount", Json.null),
       ("excel_path", Json.str excelPath)] := rfl

/-- The raw-extraction row returned by `ExtractionRepository.insert_raw`;
only its generated id is consulted by the route handler. -/
structure RawRow where
  id : Option String
deriving Repr

/-- Python truthiness on a JSON value, as used by `if excel_path:`. -/
def jsonTruthy : Json → Bool
  | .null => false
  | .bool b => b
  | .num n => !(n == 0)
  | .str s => !(s == "")
  | .arr xs => !xs.isEmpty
  | .obj kvs => !kvs.isEmpty

/-- The email branch of the `/extract` route: `email_sent` stays false (the
send is queued in the background) and `email_note` reports whether the user
is authenticated and whether the result carries a truthy `excel_path`. -/
def emailNote (userEmail : Option String) (result : List (String × Json)) : String :=
  match userEmail with
  | some e =>
      if e = "" then "user_not_authenticated"
      else if (dictGet? result "excel_path").elim false jsonTruthy then "queued"
      else "no_excel_path"
  | none => "user_not_authenticated"

/-- The post-extraction body of the `/extract` route handler.
`rawInsert` and `procInsert` are the outcomes of the two persistence
collaborator calls (`insert_raw`, `insert_processed`); an `Except.error`
models a raised exception, which the handler's local `try/except` blocks
absorb (`raw_row = None` / `pass`). The primary extraction result
`extractionResult` then gets the `email_sent` / `email_note` keys and is
returned. -/
def extract_endpoint (extractionResult : List (String × Json))
    (rawInsert : Except String RawRow)
    (procInsert : Option String → Except String Unit)
    (userEmail : Option String) : Except String (List (String × Json)) :=
  let raw_row : Option RawRow :=
    match rawInsert with
    | .ok r => some r
    | .error _ => none
  let raw_id : Option String :=
    match raw_row with
    | some r => r.id
    | none => none
  let _procOutcome : Option Unit :=
    match procInsert raw_id with
    | .ok u => some u
    | .error _ => none
  let note := emailNote userEmail extractionResult
  .ok (dictSet (dictSet extractionResult "email_sent" (Json.bool false))
        "email_note" (Json.str note))

/-- C9: a failure of either persistence call never aborts extraction: for
every outcome of the persistence collaborator (including failures), the
route handler completes and returns the primary extraction result (with the
email-status keys attached), identical to what it returns when persistence
succeeds. -/
theorem extract_endpoint_persistence_isolated
    (extractionResult : List (String × Json))
    (rawInsert rawInsert' : Except String RawRow)
    (procInsert procInsert' : Option String → Except String Unit)
    (userEmail : Option String) :
    extract_endpoint extractionResult rawInsert procInsert userEmail =
      .ok (dictSet (dictSet extractionResult "email_sent" (Json.bool false))
        "email_note" (Json.str (emailNote userEmail extractionResult))) ∧
    extract_endpoint extractionResult rawInsert procInsert userEmail =
      extract_endpoint extractionResult rawInsert' procInsert' userEmail := by
  constructor
  · cases rawInsert <;> rfl
  · cases rawInsert <;> cases rawInsert' <;> rfl

/-- One recognized OCR token: pytesseract's per-index `text`, `left`, `top`,
`width`, `height` columns bundled per token (its DICT output is parallel
arrays of equal length). -/
structure Token where
  text : String
  left : Int
  top : Int
  width : Int
  height : Int
deriving Repr, DecidableEq

/-- The inner loop of `PDFProcessor.ocr_to_blocks` for one page: a block is
appended for each token whose text has a non-whitespace character
(`if text.strip():`), carrying the untrimmed text, the token geometry and
the zero-based page index. -/
def pageBlocks (pageIndex : Nat) (toks : List Token) : List Block :=
  toks.filterMap (fun tk =>
    if (trimChars tk.text.toList).isEmpty then none
    else some { text := some tk.text, x0 := some tk.left, top := some tk.top,
                x1 := some (tk.left + tk.width),
                bottom := some (tk.top + tk.height),
                page := some pageIndex })

/-- The page loop `for page_index in range(total_pages)` of `ocr_to_blocks`,
carrying the current zero-based page index. -/
def ocrPagesAux : Nat → List (List Token) → List Block
  | _, [] => []
  | i, toks :: rest => pageBlocks i toks ++ ocrPagesAux (i + 1) rest

/-- Embeds `PDFProcessor.ocr_to_blocks`, abstracting rasterization and OCR:
`pages` is the per-page token output of `pytesseract.image_to_data`. -/
def ocr_to_blocks (pages : List (List Token)) : List Block :=
  ocrPagesAux 0 pages

/-- The page indices carried by a block sequence, in order. -/
def blockPages (bs : List Block) : List Nat :=
  bs.filterMap (fun b => b.page)

/-- The contiguity property asserted by the spec for the page indices of the
OCR block sequence: the indices are zero-based and contiguous, i.e.
downward closed (whenever an index occurs, every smaller index occurs). -/
def zeroBasedContiguous (l : List Nat) : Prop :=
  ∀ i ∈ l, ∀ j, j ≤ i → j ∈ l

lemma mem_pageBlocks {b : Block} {i : Nat} {toks : List Token}
    (h : b ∈ pageBlocks i toks) :
    b.page = some i ∧ ∃ t, b.text = some t ∧ ¬ (trimChars t.toList).isEmpty := by
  rw [pageBlocks, List.mem_filterMap] at h
  obtain ⟨tk, _, htk⟩ := h
  split at htk
  · exact absurd htk (by simp)
  · next hw =>
    rw [Option.some_inj] at htk
    subst htk
    exact ⟨rfl, tk.text, rfl, hw⟩

lemma mem_ocrPagesAux {b : Block} {pages : List (List Token)} :
    ∀ {i : Nat}, b ∈ ocrPagesAux i pages →
      (∃ t, b.text = some t ∧ ¬ (trimChars t.toList).isEmpty) ∧
      ∃ p, b.page = some p ∧ i ≤ p ∧ p < i + pages.length := by
  induction pages with
  | nil => intro i h; simp [ocrPagesAux] at h
  | cons toks rest ih =>
    intro i h
    rw [ocrPagesAux, List.mem_append] at h
    rcases h with h | h
    · obtain ⟨hp, ht⟩ := mem_pageBlocks h
      exact ⟨ht, i, hp, le_refl i, by simp⟩
    · obtain ⟨ht, p, hp, hle, hlt⟩ := ih h
      refine ⟨ht, p, hp, by omega, by simp at hlt ⊢; omega⟩

lemma blockPages_append (l1 l2 : List Block) :
    blockPages (l1 ++ l2) = blockPages l1 ++ blockPages l2 :=
  List.filterMap_append l1 l2 _

lemma pairwise_le_of_all_eq {l : List Nat} {a : Nat} (h : ∀ x ∈ l, x = a) :
    l.Pairwise (· ≤ ·) := by
  induction l with
  | nil => exact List.Pairwise.nil
  | cons x xs ih =>
    refine List.Pairwise.cons (fun y hy => ?_) (ih fun y hy => h y (by simp [hy]))
    rw [h x (by simp), h y (by simp [hy])]

lemma mem_blockPages_pageBlocks {p i : Nat} {toks : List Token}
    (h : p ∈ blockPages (pageBlocks i toks)) : p = i := by
  rw [blockPages, List.mem_filterMap] at h
  obtain ⟨b, hb, hpage⟩ := h
  have := (mem_pageBlocks hb).1
  rw [this] at hpage
  exact (Option.some_inj.mp hpage).symm

lemma pairwise_blockPages_ocrPagesAux (pages : List (List Token)) :
    ∀ i : Nat, (blockPages (ocrPagesAux i pages)).Pairwise (· ≤ ·) := by
  induction pages with
  | nil => intro i; simp [ocrPagesAux, blockPages]
  | cons toks rest ih =>
    intro i
    rw [ocrPagesAux, blockPages_append, List.pairwise_append]
    refine ⟨pairwise_le_of_all_eq (fun x hx => mem_blockPages_pageBlocks hx), ih (i + 1),
      fun a ha b hb => ?_⟩
    have ha' : a = i := mem_blockPages_pageBlocks ha
    rw [blockPages, List.mem_filterMap] at hb
    obtain ⟨blk, hblk, hpage⟩ := hb
    obtain ⟨_, p, hp, hle, _⟩ := mem_ocrPagesAux hblk
    rw [hp] at hpage
    have : p = b := Option.some_inj.mp hpage
    omega

/-- C7 as amended: every block returned by `ocr_to_blocks` has a text with
at least one non-whitespace character (whitespace-only tokens are dropped),
every carried page index is zero-based (smaller than the page count), and
the page indices are nondecreasing along the sequence; but an index of a
page yielding no tokens is simply absent, so the carried indices need not
be contiguous. -/
theorem ocr_to_blocks_invariants (pages : List (List Token)) :
    (∀ b ∈ ocr_to_blocks pages, ∃ t, b.text = some t ∧
      ¬ (trimChars t.toList).isEmpty) ∧
    (∀ b ∈ ocr_to_blocks pages, ∃ p, b.page = some p ∧ p < pages.length) ∧
    (blockPages (ocr_to_blocks pages)).Pairwise (· ≤ ·) := by
  refine ⟨fun b hb => (mem_ocrPagesAux hb).1, fun b hb => ?_,
    pairwise_blockPages_ocrPagesAux pages 0⟩
  obtain ⟨_, p, hp, _, hlt⟩ := mem_ocrPagesAux hb
  exact ⟨p, hp, by simpa using hlt⟩

/-- A three-page OCR outcome whose middle page recognises no token. -/
def mixedPages : List (List Token) :=
  [[{ text := "a", left := 0, top := 0, width := 1, height := 1 }], [],
   [{ text := "b", left := 0, top := 0, width := 1, height := 1 }]]

/-- Counterexample to C7 as stated: on a document whose middle page yields
no recognized token, the page indices carried by the `ocr_to_blocks` output
are `[0, 2]` — zero-based, but not contiguous. -/
theorem ocr_page_indices_not_contiguous :
    blockPages (ocr_to_blocks mixedPages) = [0, 2] ∧
    ¬ zeroBasedContiguous (blockPages (ocr_to_blocks mixedPages)) := by
  have h : blockPages (ocr_to_blocks mixedPages) = [0, 2] := rfl
  refine ⟨h, fun hc => ?_⟩
  have h2 := hc 2 (by rw [h]; simp) 1 (by omega)
  rw [h] at h2
  simp at h2

/-- The block `ocr_to_blocks` produces for the first page of `mixedPages`. -/
def blockA : Block :=
  { text := some "a", x0 := some 0, top := some 0, x1 := some 1,
    bottom := some 1, page := some 0 }

/-- The block `ocr_to_blocks` produces for the third page of `mixedPages`. -/
def blockB : Block :=
  { text := some "b", x0 := some 0, top := some 0, x1 := some 1,
    bottom := some 1, page := some 2 }

/-- Witness for C7's amended theorem at a concrete input: the first block
produced on `mixedPages` has non-whitespace text and an in-range page
index. -/
theorem ocr_to_blocks_invariants_witness :
    (∃ t, blockA.text = some t ∧ ¬ (trimChars t.toList).isEmpty) ∧
    ∃ p, blockA.page = some p ∧ p < mixedPages.length := by
  have hmem : blockA ∈ ocr_to_blocks mixedPages := by
    rw [show ocr_to_blocks mixedPages = [blockA, blockB] from rfl]
    simp
  exact ⟨(ocr_to_blocks_invariants mixedPages).1 _ hmem,
    (ocr_to_blocks_invariants mixedPages).2.1 _ hmem⟩

/-- The memory events of the `ocr_to_blocks` loop body: `rasterize n`
models `convert_from_path(..., first_page=n+1, last_page=n+1)` (the page's
image, and the OCR data derived from it while it is live); `release n`
models the `del image, images, data` plus `gc.collect()` that closes each
iteration. -/
inductive MemEvent where
  | rasterize (page : Nat)
  | release (page : Nat)
deriving Repr, DecidableEq

/-- The event trace of the loop `for page_index in range(total_pages)`:
each iteration rasterizes its page and releases it before the next
iteration starts. -/
def ocrTraceAux : Nat → List (List Token) → List MemEvent
  | _, [] => []
  | i, _ :: rest => MemEvent.rasterize i :: MemEvent.release i :: ocrTraceAux (i + 1) rest

/-- The memory-event trace of `PDFProcessor.ocr_to_blocks` on a document
whose per-page OCR outputs are `pages`. -/
def ocrTrace (pages : List (List Token)) : List MemEvent :=
  ocrTraceAux 0 pages

/-- Effect of one event on the set of resident page rasters. -/
def residentStep (s : List Nat) (e : MemEvent) : List Nat :=
  match e with
  | .rasterize n => s ++ [n]
  | .release n => s.erase n

/-- The pages whose raster/OCR data are resident after a trace prefix. -/
def resident (evs : List MemEvent) : List Nat :=
  evs.foldl residentStep []

lemma resident_cons2 (n : Nat) (evs : List MemEvent) :
    resident (MemEvent.rasterize n :: MemEvent.release n :: evs) = resident evs := by
  simp [resident, residentStep]

lemma resident_ocrTraceAux_le_one (pages : List (List Token)) :
    ∀ (i : Nat) (pre : List MemEvent), pre <+: ocrTraceAux i pages →
      (resident pre).length ≤ 1 := by
  induction pages with
  | nil =>
    intro i pre hpre
    rw [show ocrTraceAux i [] = [] from rfl, List.prefix_nil] at hpre
    simp [hpre, resident]
  | cons toks rest ih =>
    intro i pre hpre
    rw [show ocrTraceAux i (toks :: rest) =
      MemEvent.rasterize i :: MemEvent.release i :: ocrTraceAux (i + 1) rest
      from rfl] at hpre
    rcases List.prefix_cons_iff.mp hpre with h0 | ⟨t, ht, htp⟩
    · simp [h0, resident]
    · rcases List.prefix_cons_iff.mp htp with h1 | ⟨t2, ht2, ht3⟩
      · subst ht
        simp [h1, resident, residentStep]
      · subst ht ht2
        rw [resident_cons2]
        exact ih (i + 1) t2 ht3

lemma ocrTraceAux_split (pages : List (List Token)) :
    ∀ (i j : Nat), j < pages.length →
      ∃ pre suf, ocrTraceAux i pages =
        pre ++ MemEvent.rasterize (i + j) :: MemEvent.release (i + j) :: suf ∧
        suf = ocrTraceAux (i + j + 1) (pages.drop (j + 1)) := by
  induction pages with
  | nil => intro i j hj; simp at hj
  | cons toks rest ih =>
    intro i j hj
    cases j with
    | zero =>
      exact ⟨[], ocrTraceAux (i + 1) rest, by simp [ocrTraceAux], by simp [ocrTraceAux]⟩
    | succ j' =>
      have hj' : j' < rest.length := by
        simp only [List.length_cons] at hj
        omega
      obtain ⟨pre, suf, h1, h2⟩ := ih (i + 1) j' hj'
      have harith : i + 1 + j' = i + (j' + 1) := by omega
      refine ⟨MemEvent.rasterize i :: MemEvent.release i :: pre, suf, ?_, ?_⟩
      · rw [show ocrTraceAux i (toks :: rest) =
          MemEvent.rasterize i :: MemEvent.release i :: ocrTraceAux (i + 1) rest
          from rfl, h1, harith]
        simp
      · rw [h2, harith]
        simp

/-- C6: over the whole OCR loop, at most one page's raster (and its OCR
data) is resident after any prefix of the trace, and for every page `n`
with a successor page, the release of page `n` happens strictly before the
rasterization of page `n + 1`. -/
theorem ocr_one_page_resident (pages : List (List Token)) :
    (∀ pre, pre <+: ocrTrace pages → (resident pre).length ≤ 1) ∧
    (∀ i, i + 1 < pages.length →
      ∃ pre mid suf, ocrTrace pages =
        pre ++ MemEvent.release i :: mid ++ MemEvent.rasterize (i + 1) :: suf) := by
  constructor
  · exact fun pre h => resident_ocrTraceAux_le_one pages 0 pre h
  · intro i hi
    obtain ⟨pre, suf, h1, h2⟩ := ocrTraceAux_split pages 0 i (by omega)
    have hd : i + 1 < pages.length → (pages.drop (i + 1)).length = pages.length - (i + 1) :=
      fun _ => List.length_drop (i + 1) pages
    have hne : pages.drop (i + 1) ≠ [] := by
      intro hc
      have := List.length_drop (i + 1) pages
      rw [hc] at this
      simp at this
      omega
    obtain ⟨toks, rest', hdrop⟩ := List.exists_cons_of_ne_nil hne
    rw [hdrop] at h2
    rw [show ocrTraceAux (0 + i + 1) (toks :: rest') =
      MemEvent.rasterize (0 + i + 1) :: MemEvent.release (0 + i + 1) ::
        ocrTraceAux (0 + i + 1 + 1) rest' from rfl] at h2
    refine ⟨pre ++ [MemEvent.rasterize (0 + i)], [],
      MemEvent.release (0 + i + 1) :: ocrTraceAux (0 + i + 1 + 1) rest', ?_⟩
    rw [show ocrTrace pages = ocrTraceAux 0 pages from rfl, h1, h2]
    simp

/-- Witness for C6 at a concrete input: on the three-page document
`mixedPages`, the prefix that stops right after rasterizing page 1 has at
most one resident raster, and page 0 is released before page 1 is
rasterized. -/
theorem ocr_one_page_resident_witness :
    (resident [MemEvent.rasterize 0, MemEvent.release 0,
      MemEvent.rasterize 1]).length ≤ 1 ∧
    ∃ pre mid suf, ocrTrace mixedPages =
      pre ++ MemEvent.release 0 :: mid ++ MemEvent.rasterize 1 :: suf := by
  refine ⟨(ocr_one_page_resident mixedPages).1
    [MemEvent.rasterize 0, MemEvent.release 0, MemEvent.rasterize 1] ?_,
    (ocr_one_page_resident mixedPages).2 0 (by decide)⟩
  exact ⟨[MemEvent.release 1, MemEvent.rasterize 2, MemEvent.release 2], rfl⟩

/-- Witness for C2 at concrete inputs: a document with one non-empty page
text is not scanned; a document with only empty page texts is scanned. -/
theorem is_scanned_iff_no_text_witness :
    is_scanned ["", "x"] = false ∧ is_scanned ["", ""] = true := by
  constructor
  · exact (is_scanned_iff_no_text ["", "x"]).2.mpr ⟨"x", by simp, by decide⟩
  · refine (is_scanned_iff_no_text ["", ""]).1.mpr ?_
    intro t ht
    rcases List.mem_cons.mp ht with h | h
    · simp [h]
    · simp at h
      simp [h]
